import Mathlib

/-!
Verification of the Go runtime excerpt: the Swiss-table map small-map path and
directory maintenance (src/unnamed/part_002, package maps), the GC CPU limiter
(src/src/runtime/mgclimit.go), and the P-521 point decoder (src/unnamed/part_000,
package nistec).

Machine integers are modelled as Nat (uint64, uint8) and Int (int64) with the
wrap-around made explicit where the Go code can overflow.
-/

namespace GoModel

/-- 2^64, the modulus of Go uint64 arithmetic. -/
def U64 : Nat := 2 ^ 64

/-- 2^63, used to wrap Int values into the int64 range. -/
def I64half : Int := 2 ^ 63

/-- Wrap an Int into the int64 range, the way Go int64 arithmetic wraps. -/
def i64wrap (n : Int) : Int := (n + I64half) % (2 * I64half) - I64half

/-- Go conversion uint64(x) of an int64 value x: reduce mod 2^64, nonnegative. -/
def u64ofI64 (n : Int) : Nat := (n % (U64 : Int)).toNat

/-- Go uint64 subtraction a - b (with wrap-around) for a b < 2^64. -/
def u64sub (a b : Nat) : Nat := (a + U64 - b % U64) % U64

theorem u64sub_of_le {a b : Nat} (hba : b ≤ a) (ha : a < U64) : u64sub a b = a - b := by
  unfold u64sub
  have hb : b % U64 = b := Nat.mod_eq_of_lt (lt_of_le_of_lt hba ha)
  rw [hb]
  have h1 : a + U64 - b = (a - b) + U64 := by omega
  rw [h1, Nat.add_mod_right]
  exact Nat.mod_eq_of_lt (by omega)

theorem u64ofI64_of_nonneg {n : Int} (h0 : 0 ≤ n) (h1 : n < (U64 : Int)) :
    u64ofI64 n = n.toNat := by
  unfold u64ofI64
  rw [Int.emod_eq_of_lt h0 h1]

/-- The half-range bound 2^63 < 2^64 stated on Nat. -/
theorem i64wrap_mem (n : Int) : -I64half ≤ i64wrap n ∧ i64wrap n < I64half := by
  unfold i64wrap
  constructor
  · have := Int.emod_nonneg (n + I64half) (show (2 * I64half) ≠ 0 by decide)
    omega
  · have := Int.emod_lt_of_pos (n + I64half) (show 0 < 2 * I64half by decide)
    omega

theorem i64wrap_of_mem {n : Int} (h0 : -I64half ≤ n) (h1 : n < I64half) :
    i64wrap n = n := by
  unfold i64wrap
  rw [Int.emod_eq_of_lt (by omega) (by omega)]
  omega

/-! ## GC CPU limiter (src/src/runtime/mgclimit.go)

The limiter state is the subset of gcCPULimiterState fields that the modelled
operations read or write.  The spin lock is not part of the state: operations
that run under the lock are modelled directly, and the lock-acquisition outcome
of update is passed in as a Bool.  The atomic enabled flag, the bucket and the
overflow counter are uint64/bool fields; nanotime stamps are int64. -/

structure gcCPULimiterState where
  enabled : Bool
  /-- bucket.fill, a uint64 count of nanoseconds. -/
  fill : Nat
  /-- bucket.capacity, a uint64 count of nanoseconds. -/
  capacity : Nat
  /-- dropped GC CPU time, a uint64. -/
  overflow : Nat
  gcEnabled : Bool
  transitioning : Bool
  /-- int64 cumulative assist time at the last update. -/
  lastTotalAssistTime : Int
  /-- int64 nanotime stamp of the last update. -/
  lastUpdate : Int
  /-- int32 processor count (internal copy of gomaxprocs). -/
  nprocs : Int
  deriving DecidableEq

/-- capacityPerProc = 1e9: bucket capacity per P, one second in nanoseconds. -/
def capacityPerProc : Nat := 1000000000

/-- gcCPULimiterState.accumulate: add time to the bucket and maintain the
enabled flag.  change = gcTime - mutatorTime with int64 wrap; uint64
conversions and subtractions follow the Go operand order exactly. -/
def accumulate (l : gcCPULimiterState) (mutatorTime gcTime : Int) : gcCPULimiterState :=
  let headroom := u64sub l.capacity l.fill
  let enabled := headroom = 0
  let change := i64wrap (gcTime - mutatorTime)
  if 0 < change ∧ headroom ≤ u64ofI64 change then
    -- limiting case: the bucket saturates at capacity
    { l with overflow := (l.overflow + u64sub (u64ofI64 change) headroom) % U64,
             fill := l.capacity,
             enabled := if ¬ enabled then true else l.enabled }
  else
    let fill1 := if change < 0 ∧ l.fill ≤ u64ofI64 (i64wrap (-change))
                 then 0
                 else u64sub l.fill (u64ofI64 (i64wrap (-change)))
    { l with fill := fill1,
             enabled := if change ≠ 0 ∧ enabled then false else l.enabled }

/-- gcCPULimiterState.updateLocked.  The collector share of the window,
int64(float64(windowTotalTime) * gcBackgroundUtilization) in the source, is a
floating point computation whose backing constant (gcBackgroundUtilization,
mgcpacer.go) is outside the excerpt; it is abstracted as the parameter bgUtil. -/
def updateLocked (bgUtil : Int → Int) (l : gcCPULimiterState)
    (totalAssistTime now : Int) : gcCPULimiterState :=
  if now < l.lastUpdate ∨ totalAssistTime < l.lastTotalAssistTime then
    -- stale input: defensively avoid overflow, drop the update
    l
  else
    let windowTotalTime := i64wrap ((now - l.lastUpdate) * l.nprocs)
    let l1 := { l with lastUpdate := now }
    if ¬ l.gcEnabled then
      accumulate l1 windowTotalTime 0
    else
      let windowGCTime :=
        i64wrap ((totalAssistTime - l.lastTotalAssistTime) + bgUtil windowTotalTime)
      let l2 := accumulate l1 (i64wrap (windowTotalTime - windowGCTime)) windowGCTime
      { l2 with lastTotalAssistTime := totalAssistTime }

/-- gcCPULimiterState.update.  lockAcquired is the outcome of tryLock; a failed
acquisition silently drops the update.  none models the throw on a call during
a transition. -/
def update (bgUtil : Int → Int) (l : gcCPULimiterState)
    (totalAssistTime now : Int) (lockAcquired : Bool) : Option gcCPULimiterState :=
  if ¬ lockAcquired then some l
  else if l.transitioning then none
  else some (updateLocked bgUtil l totalAssistTime now)

/-- gcCPULimiterState.finishGCTransition.  none models the throw when no
transition is in progress. -/
def finishGCTransition (l : gcCPULimiterState) (now : Int) : Option gcCPULimiterState :=
  if ¬ l.transitioning then none
  else
    let l1 := if l.lastUpdate ≤ now
              then accumulate l 0 (i64wrap ((now - l.lastUpdate) * l.nprocs))
              else l
    some { l1 with lastUpdate := now, transitioning := false, lastTotalAssistTime := 0 }

/-- gcCPULimiterState.resetCapacity, on the path where tryLock succeeded. -/
def resetCapacity (bgUtil : Int → Int) (l : gcCPULimiterState)
    (now nprocs : Int) : gcCPULimiterState :=
  let l1 := updateLocked bgUtil l 0 now
  let l2 := { l1 with nprocs := nprocs,
                      capacity := (u64ofI64 nprocs * capacityPerProc) % U64 }
  if l2.capacity < l2.fill then { l2 with fill := l2.capacity, enabled := true }
  else if l2.fill < l2.capacity then { l2 with enabled := false }
  else l2

/-- The bucket property claimed by the spec: the fill stays within the
capacity and the enabled flag tracks saturation. -/
def BucketInv (l : gcCPULimiterState) : Prop :=
  l.fill ≤ l.capacity ∧ (l.enabled = true ↔ l.fill = l.capacity)

instance (l : gcCPULimiterState) : Decidable (BucketInv l) := by
  unfold BucketInv; infer_instance

/-- Folding a sequence of accumulate calls over a state. -/
def accumulateSeq (l : gcCPULimiterState) (ops : List (Int × Int)) : gcCPULimiterState :=
  ops.foldl (fun s p => accumulate s p.1 p.2) l

theorem U64_eq : U64 = 18446744073709551616 := by norm_num [U64]

theorem I64half_eq : I64half = 9223372036854775808 := by norm_num [I64half]

/-- Value of the Go conversion uint64(-change) for an int64 change. -/
theorem u64_neg_wrap {c : Int} (h0 : -I64half ≤ c) (h1 : c < I64half) :
    u64ofI64 (i64wrap (-c)) = if c ≤ 0 then (-c).toNat else U64 - c.toNat := by
  rw [I64half_eq] at h0 h1
  simp only [u64ofI64, i64wrap, U64_eq, I64half_eq]
  split_ifs with hc0 <;> omega

/-- Value of the Go conversion uint64(change) for an int64 change. -/
theorem u64ofI64_val {c : Int} (h0 : -I64half ≤ c) (h1 : c < I64half) :
    u64ofI64 c = if 0 ≤ c then c.toNat else U64 - (-c).toNat := by
  rw [I64half_eq] at h0 h1
  simp only [u64ofI64, U64_eq]
  split_ifs with hc0 <;> omega

/-- Step preservation for the amended bucket invariant: a single accumulate
call keeps the fill within a positive capacity and the enabled flag tied to
saturation. -/
theorem accumulate_bucketInv (l : gcCPULimiterState) (mt gt : Int)
    (hcap : 0 < l.capacity) (hlt : l.capacity < U64) (hinv : BucketInv l) :
    BucketInv (accumulate l mt gt) := by
  obtain ⟨hfill, hen⟩ := hinv
  have hflt : l.fill < U64 := lt_of_le_of_lt hfill hlt
  have hhr : u64sub l.capacity l.fill = l.capacity - l.fill := u64sub_of_le hfill hlt
  have hcb := i64wrap_mem (gt - mt)
  have hneg := u64_neg_wrap hcb.1 hcb.2
  have hpos := u64ofI64_val hcb.1 hcb.2
  simp only [accumulate, BucketInv, hhr, hneg, hpos]
  split_ifs
  all_goals dsimp only
  all_goals try rw [hen]
  all_goals try simp only [eq_self_iff_true, true_iff, iff_true, and_true, true_and,
    Bool.false_eq_true, false_iff]
  all_goals simp only [u64sub, U64_eq, I64half_eq] at *
  all_goals omega

theorem accumulate_capacity (l : gcCPULimiterState) (mt gt : Int) :
    (accumulate l mt gt).capacity = l.capacity := by
  simp only [accumulate]
  split_ifs <;> rfl

/-- C2 (amended with 0 < capacity): the bucket invariant holds after every
sequence of accumulate calls, provided the capacity is positive. -/
theorem accumulateSeq_bucketInv (l : gcCPULimiterState) (ops : List (Int × Int))
    (hcap : 0 < l.capacity) (hlt : l.capacity < U64) (hinv : BucketInv l) :
    BucketInv (accumulateSeq l ops) := by
  induction ops generalizing l with
  | nil => exact hinv
  | cons p ops ih =>
      show BucketInv (accumulateSeq (accumulate l p.1 p.2) ops)
      exact ih _ ((accumulate_capacity l p.1 p.2).symm ▸ hcap)
        ((accumulate_capacity l p.1 p.2).symm ▸ hlt)
        (accumulate_bucketInv l p.1 p.2 hcap hlt hinv)

/-- Concrete limiter state with a zero-capacity bucket. -/
def limiterZeroCap : gcCPULimiterState :=
  { enabled := true, fill := 0, capacity := 0, overflow := 0,
    gcEnabled := false, transitioning := false, lastTotalAssistTime := 0,
    lastUpdate := 0, nprocs := 1 }

/-- C2 counterexample: with capacity = 0 the claimed invariant (fill within
capacity and enabled iff fill = capacity) holds initially but is broken by a
single draining accumulate call, which stores enabled = false while
fill = capacity = 0 still holds. -/
theorem accumulateSeq_bucketInv_cex :
    BucketInv limiterZeroCap ∧ ¬ BucketInv (accumulateSeq limiterZeroCap [(1, 0)]) := by
  decide

/-- Concrete limiter state with a positive-capacity bucket. -/
def limiterSmallCap : gcCPULimiterState :=
  { enabled := false, fill := 0, capacity := 5, overflow := 0,
    gcEnabled := false, transitioning := false, lastTotalAssistTime := 0,
    lastUpdate := 0, nprocs := 1 }

/-- Witness for accumulateSeq_bucketInv at a concrete state and sequence. -/
theorem accumulateSeq_bucketInv_witness :
    0 < limiterSmallCap.capacity ∧ limiterSmallCap.capacity < U64 ∧
    BucketInv limiterSmallCap ∧
    BucketInv (accumulateSeq limiterSmallCap [(0, 3), (0, 9), (4, 0)]) :=
  ⟨by decide, by decide, by decide,
   accumulateSeq_bucketInv _ [(0, 3), (0, 9), (4, 0)] (by decide) (by decide) (by decide)⟩

/-- C6: an update that acquires the lock outside a transition but carries a
stale timestamp (now < lastUpdate) or a decreased assist time is discarded:
the limiter state is returned unchanged. -/
theorem update_stale_discard (bgUtil : Int → Int) (l : gcCPULimiterState)
    (totalAssistTime now : Int) (htrans : l.transitioning = false)
    (hstale : now < l.lastUpdate ∨ totalAssistTime < l.lastTotalAssistTime) :
    update bgUtil l totalAssistTime now true = some l := by
  have h1 : update bgUtil l totalAssistTime now true =
      some (updateLocked bgUtil l totalAssistTime now) := by
    simp [update, htrans]
  rw [h1]
  unfold updateLocked
  rw [if_pos hstale]

/-- Concrete limiter state carrying a late lastUpdate stamp. -/
def limiterLateStamp : gcCPULimiterState :=
  { enabled := false, fill := 3, capacity := 5, overflow := 0,
    gcEnabled := true, transitioning := false, lastTotalAssistTime := 2,
    lastUpdate := 7, nprocs := 4 }

/-- Witness for update_stale_discard at a concrete state. -/
theorem update_stale_discard_witness :
    limiterLateStamp.transitioning = false ∧
    ((5 : Int) < limiterLateStamp.lastUpdate ∨
     (9 : Int) < limiterLateStamp.lastTotalAssistTime) ∧
    update (fun _ => 0) limiterLateStamp 9 5 true = some limiterLateStamp :=
  ⟨rfl, Or.inl (by decide),
   update_stale_discard (fun _ => 0) limiterLateStamp 9 5 rfl (Or.inl (by decide))⟩

/-- Concrete limiter state mid-transition whose lastUpdate is ahead of the
timestamp that finishGCTransition will receive. -/
def limiterLateTransition : gcCPULimiterState :=
  { enabled := false, fill := 5, capacity := 10, overflow := 0,
    gcEnabled := false, transitioning := true, lastTotalAssistTime := 0,
    lastUpdate := 10, nprocs := 1 }

/-- C7 counterexample: with transitioning set but now earlier than lastUpdate,
finishGCTransition does not feed the STW window into the bucket (the guard
now >= lastUpdate fails), so the result differs from the state the claim
describes. -/
theorem finishGCTransition_cex :
    limiterLateTransition.transitioning = true ∧
    finishGCTransition limiterLateTransition 0 ≠
      some { (accumulate limiterLateTransition 0
                (i64wrap ((0 - limiterLateTransition.lastUpdate) *
                  limiterLateTransition.nprocs))) with
             lastUpdate := 0, transitioning := false, lastTotalAssistTime := 0 } := by
  decide

/-- C7 (amended with lastUpdate <= now): finishGCTransition during a
transition accounts the whole STW window (now - lastUpdate) * nprocs as
collector time via accumulate, then sets lastUpdate to now, clears
transitioning and resets lastTotalAssistTime to 0. -/
theorem finishGCTransition_spec (l : gcCPULimiterState) (now : Int)
    (ht : l.transitioning = true) (hle : l.lastUpdate ≤ now) :
    finishGCTransition l now =
      some { (accumulate l 0 (i64wrap ((now - l.lastUpdate) * l.nprocs))) with
             lastUpdate := now, transitioning := false, lastTotalAssistTime := 0 } := by
  unfold finishGCTransition
  rw [ht]
  simp only [Bool.not_true, if_false, if_pos hle]
  rfl

/-- Concrete limiter state mid-transition with a timely lastUpdate stamp. -/
def limiterMidTransition : gcCPULimiterState :=
  { enabled := false, fill := 2, capacity := 10, overflow := 0,
    gcEnabled := true, transitioning := true, lastTotalAssistTime := 3,
    lastUpdate := 1, nprocs := 2 }

/-- Witness for finishGCTransition_spec at a concrete state. -/
theorem finishGCTransition_spec_witness :
    limiterMidTransition.transitioning = true ∧
    limiterMidTransition.lastUpdate ≤ (4 : Int) ∧
    finishGCTransition limiterMidTransition 4 =
      some { (accumulate limiterMidTransition 0
                (i64wrap ((4 - limiterMidTransition.lastUpdate) *
                  limiterMidTransition.nprocs))) with
             lastUpdate := 4, transitioning := false, lastTotalAssistTime := 0 } :=
  ⟨rfl, by decide, finishGCTransition_spec limiterMidTransition 4 rfl (by decide)⟩

/-- Concrete limiter state whose fill equals the capacity that a
resetCapacity(now, 1) call will install. -/
def limiterHalfFull : gcCPULimiterState :=
  { enabled := false, fill := 1000000000, capacity := 2000000000, overflow := 0,
    gcEnabled := false, transitioning := false, lastTotalAssistTime := 0,
    lastUpdate := 0, nprocs := 2 }

/-- C8 counterexample: when the post-update fill lands exactly on the new
capacity without clamping, resetCapacity leaves enabled untouched, so
"enabled iff fill = capacity" can fail (enabled stays false). -/
theorem resetCapacity_cex :
    ¬ ((resetCapacity (fun _ => 0) limiterHalfFull 0 1).enabled = true ↔
       (resetCapacity (fun _ => 0) limiterHalfFull 0 1).fill =
         (resetCapacity (fun _ => 0) limiterHalfFull 0 1).capacity) := by
  decide

/-- C8 (amended): after resetCapacity the capacity is nprocs * capacityPerProc
and the fill is clamped to it; enabled is stored true when the fill was
clamped down, stored false when the fill is below the new capacity, and kept
unchanged when the fill already equals the new capacity exactly. -/
theorem resetCapacity_spec (bgUtil : Int → Int) (l : gcCPULimiterState)
    (now nprocs : Int) (h0 : 0 ≤ nprocs) (h1 : nprocs < 2 ^ 31) :
    (resetCapacity bgUtil l now nprocs).capacity = nprocs.toNat * capacityPerProc ∧
    (resetCapacity bgUtil l now nprocs).fill =
      min (updateLocked bgUtil l 0 now).fill (nprocs.toNat * capacityPerProc) ∧
    (resetCapacity bgUtil l now nprocs).enabled =
      (if nprocs.toNat * capacityPerProc < (updateLocked bgUtil l 0 now).fill then true
       else if (updateLocked bgUtil l 0 now).fill < nprocs.toNat * capacityPerProc then false
       else (updateLocked bgUtil l 0 now).enabled) := by
  have hc : (u64ofI64 nprocs * capacityPerProc) % U64 = nprocs.toNat * capacityPerProc := by
    have h2 : u64ofI64 nprocs = nprocs.toNat :=
      u64ofI64_of_nonneg h0 (by rw [U64_eq]; omega)
    rw [h2, U64_eq]
    have h3 : nprocs.toNat < 2 ^ 31 := by omega
    have h4 : nprocs.toNat * capacityPerProc < 18446744073709551616 := by
      simp only [capacityPerProc]
      omega
    exact Nat.mod_eq_of_lt h4
  simp only [resetCapacity, hc]
  split_ifs with hgt hlt2 <;> dsimp only <;> refine ⟨rfl, ?_, ?_⟩ <;>
    first
      | rfl
      | omega

/-- Concrete limiter state that a resetCapacity(now, 1) call clamps. -/
def limiterOverFull : gcCPULimiterState :=
  { enabled := true, fill := 3000000000, capacity := 3000000000, overflow := 0,
    gcEnabled := false, transitioning := false, lastTotalAssistTime := 0,
    lastUpdate := 0, nprocs := 3 }

/-- Witness for resetCapacity_spec at a concrete state. -/
theorem resetCapacity_spec_witness :
    (0 : Int) ≤ 1 ∧ (1 : Int) < 2 ^ 31 ∧
    ((resetCapacity (fun _ => 0) limiterOverFull 0 1).capacity =
      (1 : Int).toNat * capacityPerProc ∧
     (resetCapacity (fun _ => 0) limiterOverFull 0 1).fill =
      min (updateLocked (fun _ => 0) limiterOverFull 0 0).fill
        ((1 : Int).toNat * capacityPerProc) ∧
     (resetCapacity (fun _ => 0) limiterOverFull 0 1).enabled =
      (if (1 : Int).toNat * capacityPerProc <
          (updateLocked (fun _ => 0) limiterOverFull 0 0).fill then true
       else if (updateLocked (fun _ => 0) limiterOverFull 0 0).fill <
          (1 : Int).toNat * capacityPerProc then false
       else (updateLocked (fun _ => 0) limiterOverFull 0 0).enabled)) :=
  ⟨by decide, by decide, resetCapacity_spec (fun _ => 0) limiterOverFull 0 1 (by decide) (by decide)⟩


/-! ## Swiss-table map, small-map path (src/unnamed/part_002, package maps)

A Map whose dirLen is 0 stores all entries in a single inline Group of
abi.SwissMapGroupSlots = 8 slots.  The group primitives (control word
encoding, matchH2, matchEmpty, set, setEmpty; file group.go) are not part of
the excerpt and are modelled from the spec, section 4.1: each slot has a
control byte that is either the empty marker, the deleted marker, or the low
7 bits of the hash (H2) of an occupied slot; the match operations return the
set of slots whose control byte equals the probe, scanned in slot order.
The external hash function and the key equality predicate are supplied as a
pure function hashF and decidable equality on the key type. -/

/-- abi.SwissMapGroupSlots. -/
def groupSlots : Nat := 8

/-- Modelled from the spec: the control byte of an empty slot (group.go is
not in the excerpt).  Occupied slots carry H2 < 128, so the empty marker is
the standard Swiss-table value 0b10000000. -/
def ctrlEmpty : Nat := 128

/-- Modelled from the spec: the control byte of a deleted slot (tombstone). -/
def ctrlDeleted : Nat := 254

/-- h1 extracts the upper 57 bits of a hash (h >> 7). -/
def h1 (h : Nat) : Nat := h / 128

/-- h2 extracts the lower 7 bits of a hash (h & 0x7f). -/
def h2 (h : Nat) : Nat := h % 128

theorem h2_lt (h : Nat) : h2 h < 128 := Nat.mod_lt _ (by norm_num)

/-- One group: 8 control bytes plus 8 key slots and 8 element slots. -/
structure Group (K V : Type) where
  ctrls : Fin 8 → Nat
  keys : Fin 8 → K
  elems : Fin 8 → V

/-- Modelled from the spec: matchH2 returns the slots whose control byte
equals the 7-bit probe, in slot order (the bitset is consumed lowest bit
first by first/removeFirst, which corresponds to head/tail here). -/
def Group.matchH2 {K V : Type} (g : Group K V) (h : Nat) : List (Fin 8) :=
  (List.finRange 8).filter (fun i => decide (g.ctrls i = h))

/-- Modelled from the spec: matchEmpty returns the slots whose control byte
is the empty marker, in slot order. -/
def Group.matchEmpty {K V : Type} (g : Group K V) : List (Fin 8) :=
  (List.finRange 8).filter (fun i => decide (g.ctrls i = ctrlEmpty))

def Group.setCtrl {K V : Type} (g : Group K V) (i : Fin 8) (c : Nat) : Group K V :=
  { g with ctrls := Function.update g.ctrls i c }

def Group.setKey {K V : Type} (g : Group K V) (i : Fin 8) (k : K) : Group K V :=
  { g with keys := Function.update g.keys i k }

def Group.setElem {K V : Type} (g : Group K V) (i : Fin 8) (v : V) : Group K V :=
  { g with elems := Function.update g.elems i v }

/-- A Map on the small-map path: used (uint64) and the inline group.
dirPtr points at the group and dirLen = 0; the type descriptor, seed and
clearSeq fields play no role in the modelled operations. -/
structure SmallMap (K V : Type) where
  used : Nat
  group : Group K V

/-- The freshly created small map (NewMap with capacity <= groupSlots):
every control byte empty, slot memory zeroed. -/
def emptySmallMap (K V : Type) [Inhabited K] [Inhabited V] : SmallMap K V :=
  { used := 0,
    group := { ctrls := fun _ => ctrlEmpty, keys := fun _ => default,
               elems := fun _ => default } }

/-- The scan at the heart of the small-map operations: the first slot whose
control byte equals the probe h and whose key equals key. -/
def findKeySlot {K V : Type} [DecidableEq K] (g : Group K V) (h : Nat) (key : K) :
    Option (Fin 8) :=
  (List.finRange 8).find? (fun i => decide (g.ctrls i = h) && decide (g.keys i = key))

/-- Map.getWithKeySmall: scan the 8 control bytes; on a byte equal to h2,
confirm with key equality; return the key/elem pair of the first hit. -/
def getWithKeySmall {K V : Type} [DecidableEq K] (m : SmallMap K V)
    (hash : Nat) (key : K) : Option (K × V) :=
  (findKeySlot m.group (h2 hash) key).map
    (fun i => (m.group.keys i, m.group.elems i))

/-- Map.Get on the small-map path: hash the key, return the element. -/
def getSmall {K V : Type} [DecidableEq K] (hashF : K → Nat) (m : SmallMap K V)
    (key : K) : Option V :=
  (getWithKeySmall m (hashF key) key).map Prod.snd

/-- Map.putSlotSmall with the element write of Map.Put folded in: walk the
matchH2 candidates for an existing slot holding the key (the key update for
NeedKeyUpdate types is the identity under exact equality and is omitted);
otherwise claim the first empty slot, or fail (none) like the fatal
"small map with no empty slot" branch when the group has no empty slot. -/
def putSlotSmall {K V : Type} [DecidableEq K] (m : SmallMap K V)
    (hash : Nat) (key : K) (elem : V) : Option (SmallMap K V) :=
  match (m.group.matchH2 (h2 hash)).find? (fun i => decide (m.group.keys i = key)) with
  | some i => some { m with group := m.group.setElem i elem }
  | none =>
      match m.group.matchEmpty with
      | [] => none
      | i :: _ =>
          some { used := (m.used + 1) % U64,
                 group := ((m.group.setKey i key).setElem i elem).setCtrl i (h2 hash) }

/-- Map.deleteSmall: find the slot holding the key among the matchH2
candidates; clear its key and element memory and mark the slot empty
directly (small maps need no tombstone). -/
def deleteSmall {K V : Type} [DecidableEq K] [Inhabited K] [Inhabited V]
    (m : SmallMap K V) (hash : Nat) (key : K) : SmallMap K V :=
  match (m.group.matchH2 (h2 hash)).find? (fun i => decide (m.group.keys i = key)) with
  | some i =>
      { used := (m.used + (U64 - 1)) % U64,
        group := ((m.group.setKey i default).setElem i default).setCtrl i ctrlEmpty }
  | none => m

/-- Map.clearSmall: zero the group memory and reset every control byte. -/
def clearSmall {K V : Type} [Inhabited K] [Inhabited V] (m : SmallMap K V) :
    SmallMap K V :=
  { used := 0,
    group := { ctrls := fun _ => ctrlEmpty, keys := fun _ => default,
               elems := fun _ => default } }

/-- One mutating Map operation restricted to the small-map path. -/
inductive SmallOp (K V : Type) where
  | put (k : K) (v : V)
  | del (k : K)
  | clear

/-- Apply one operation the way Map.PutSlot / Map.Delete / Map.Clear dispatch
on the small-map path.  none means the operation left the small-map path
(growToTable when the group is full) or hit the fatal branch. -/
def applySmallOp {K V : Type} [DecidableEq K] [Inhabited K] [Inhabited V]
    (hashF : K → Nat) (m : SmallMap K V) : SmallOp K V → Option (SmallMap K V)
  | .put k v => if m.used < groupSlots then putSlotSmall m (hashF k) k v else none
  | .del k => some (deleteSmall m (hashF k) k)
  | .clear => some (clearSmall m)

/-- Run a sequence of small-map operations. -/
def runSmallOps {K V : Type} [DecidableEq K] [Inhabited K] [Inhabited V]
    (hashF : K → Nat) : SmallMap K V → List (SmallOp K V) → Option (SmallMap K V)
  | m, [] => some m
  | m, op :: ops => (applySmallOp hashF m op).bind (fun m2 => runSmallOps hashF m2 ops)

/-- Number of occupied (non-empty) control bytes of a group. -/
def occupiedCount {K V : Type} (g : Group K V) : Nat :=
  Finset.sum Finset.univ (fun i : Fin 8 => if g.ctrls i ≠ ctrlEmpty then 1 else 0)

/-- The key named by an occupied slot. -/
def HasKey {K V : Type} (m : SmallMap K V) (k : K) : Prop :=
  ∃ i, m.group.ctrls i ≠ ctrlEmpty ∧ m.group.keys i = k

/-- Well-formedness of a small map relative to the external hash function:
used counts the occupied slots, every occupied control byte is the H2 of the
hash of its key, and occupied slots hold pairwise distinct keys. -/
structure SmallWF {K V : Type} (hashF : K → Nat) (m : SmallMap K V) : Prop where
  used_eq : m.used = occupiedCount m.group
  ctrl_occ : ∀ i, m.group.ctrls i ≠ ctrlEmpty →
    m.group.ctrls i = h2 (hashF (m.group.keys i))
  keys_inj : ∀ i j, m.group.ctrls i ≠ ctrlEmpty → m.group.ctrls j ≠ ctrlEmpty →
    m.group.keys i = m.group.keys j → i = j


/-! ### List and counting helpers for the slot scans -/

/-- Scanning the filtered candidate list is the fused scan with the
conjunction of the two predicates. -/
theorem find?_filter {A : Type} (l : List A) (p q : A → Bool) :
    (l.filter p).find? q = l.find? (fun a => p a && q a) := by
  induction l with
  | nil => rfl
  | cons a l ih =>
      simp only [List.filter_cons, List.find?_cons]
      by_cases hp : p a <;> by_cases hq : q a <;>
        simp [hp, hq, ih, List.find?_cons]

/-- find? only depends on the pointwise values of the predicate. -/
theorem find?_congr {A : Type} {p q : A → Bool} (l : List A)
    (h : ∀ a ∈ l, p a = q a) : l.find? p = l.find? q := by
  induction l with
  | nil => rfl
  | cons a l ih =>
      have ha := h a (List.mem_cons_self a l)
      rw [List.find?_cons, List.find?_cons, ha]
      cases hq : q a
      · exact ih (fun x hx => h x (List.mem_cons_of_mem a hx))
      · rfl

/-- find? returns the unique satisfier of the predicate when it is a member. -/
theorem find?_eq_some_unique {A : Type} {p : A → Bool} {i : A} (l : List A) :
    i ∈ l → p i = true → (∀ j ∈ l, p j = true → j = i) → l.find? p = some i := by
  induction l with
  | nil => intro h; cases h
  | cons a l ih =>
      intro hmem hi huniq
      by_cases hpa : p a = true
      · rw [List.find?_cons_of_pos _ hpa, huniq a (List.mem_cons_self a l) hpa]
      · have hmem2 : i ∈ l := by
          rcases List.mem_cons.mp hmem with h | h
          · exact absurd (h ▸ hi) hpa
          · exact h
        rw [List.find?_cons_of_neg _ hpa]
        exact ih hmem2 hi (fun j hj hpj => huniq j (List.mem_cons_of_mem a hj) hpj)

/-- The fatal branch guard: a group with fewer than 8 occupied control bytes
has a nonzero matchEmpty mask. -/
theorem matchEmpty_ne_nil {K V : Type} (g : Group K V)
    (hcount : occupiedCount g < 8) : g.matchEmpty ≠ [] := by
  intro hnil
  have hall : ∀ i : Fin 8, g.ctrls i ≠ ctrlEmpty := by
    intro i
    have hm := List.filter_eq_nil_iff.mp hnil i (List.mem_finRange i)
    simpa using hm
  have h8 : occupiedCount g = 8 := by
    unfold occupiedCount
    rw [Finset.sum_congr rfl (fun i _ => if_pos (hall i))]
    simp
  omega

/-- The head of matchEmpty is an empty slot. -/
theorem matchEmpty_head {K V : Type} (g : Group K V) {i : Fin 8} {rest : List (Fin 8)}
    (h : g.matchEmpty = i :: rest) : g.ctrls i = ctrlEmpty := by
  have hm : i ∈ g.matchEmpty := h ▸ List.mem_cons_self i rest
  have := (List.mem_filter.mp hm).2
  simpa using this

/-- How the occupied count changes when one control byte is overwritten. -/
theorem occupiedCount_update {K V : Type} (g g2 : Group K V) (i : Fin 8) (c : Nat)
    (hc : g2.ctrls = Function.update g.ctrls i c) :
    occupiedCount g2 + (if g.ctrls i ≠ ctrlEmpty then 1 else 0) =
      occupiedCount g + (if c ≠ ctrlEmpty then 1 else 0) := by
  have e1 : occupiedCount g2 =
      (if c ≠ ctrlEmpty then 1 else 0) +
      Finset.sum (Finset.univ.erase i)
        (fun j : Fin 8 => if g.ctrls j ≠ ctrlEmpty then 1 else 0) := by
    unfold occupiedCount
    rw [hc, ← Finset.add_sum_erase _ _ (Finset.mem_univ i), Function.update_same]
    congr 1
    apply Finset.sum_congr rfl
    intro j hj
    rw [Function.update_noteq (Finset.ne_of_mem_erase hj)]
  have e2 : occupiedCount g =
      (if g.ctrls i ≠ ctrlEmpty then 1 else 0) +
      Finset.sum (Finset.univ.erase i)
        (fun j : Fin 8 => if g.ctrls j ≠ ctrlEmpty then 1 else 0) :=
    (Finset.add_sum_erase _ _ (Finset.mem_univ i)).symm
  omega

/-- An occupied slot makes the occupied count positive. -/
theorem occupiedCount_pos {K V : Type} (g : Group K V) (i : Fin 8)
    (hi : g.ctrls i ≠ ctrlEmpty) : 1 ≤ occupiedCount g := by
  have e2 : occupiedCount g =
      (if g.ctrls i ≠ ctrlEmpty then 1 else 0) +
      Finset.sum (Finset.univ.erase i)
        (fun j : Fin 8 => if g.ctrls j ≠ ctrlEmpty then 1 else 0) :=
    (Finset.add_sum_erase _ _ (Finset.mem_univ i)).symm
  rw [e2, if_pos hi]
  omega

theorem occupiedCount_le {K V : Type} (g : Group K V) : occupiedCount g ≤ 8 := by
  unfold occupiedCount
  calc Finset.sum Finset.univ (fun i : Fin 8 => if g.ctrls i ≠ ctrlEmpty then 1 else 0)
      ≤ Finset.sum Finset.univ (fun _ : Fin 8 => 1) :=
        Finset.sum_le_sum (fun j _ => by split <;> omega)
    _ = 8 := by simp

/-- putSlotSmall and deleteSmall walk matchH2 checking key equality; that is
the fused scan findKeySlot. -/
theorem matchH2_find_eq {K V : Type} [DecidableEq K] (g : Group K V) (h : Nat) (key : K) :
    (g.matchH2 h).find? (fun i => decide (g.keys i = key)) = findKeySlot g h key :=
  find?_filter _ _ _

/-- On a well-formed small map, the scan fails for a key held by no slot. -/
theorem findKeySlot_eq_none {K V : Type} [DecidableEq K] (hashF : K → Nat)
    (m : SmallMap K V) (hWF : SmallWF hashF m) (k : K) (hnk : ¬ HasKey m k) :
    findKeySlot m.group (h2 (hashF k)) k = none := by
  apply List.find?_eq_none.mpr
  intro i _
  simp only [Bool.and_eq_true, decide_eq_true_eq, not_and]
  intro hc hk
  have hocc : m.group.ctrls i ≠ ctrlEmpty := by
    rw [hc]
    have := h2_lt (hashF k)
    unfold ctrlEmpty
    omega
  exact hnk ⟨i, hocc, hk⟩

/-- On a well-formed small map, the scan returns the slot holding the key. -/
theorem findKeySlot_eq_some {K V : Type} [DecidableEq K] (hashF : K → Nat)
    (m : SmallMap K V) (hWF : SmallWF hashF m) {k : K} {i0 : Fin 8}
    (hocc : m.group.ctrls i0 ≠ ctrlEmpty) (hkey : m.group.keys i0 = k) :
    findKeySlot m.group (h2 (hashF k)) k = some i0 := by
  apply find?_eq_some_unique _ (List.mem_finRange i0)
  · simp only [Bool.and_eq_true, decide_eq_true_eq]
    exact ⟨by rw [hWF.ctrl_occ i0 hocc, hkey], hkey⟩
  · intro j _ hj
    simp only [Bool.and_eq_true, decide_eq_true_eq] at hj
    obtain ⟨hcj, hkj⟩ := hj
    have hoccj : m.group.ctrls j ≠ ctrlEmpty := by
      rw [hcj]
      have := h2_lt (hashF k)
      unfold ctrlEmpty
      omega
    exact hWF.keys_inj j i0 hoccj hocc (by rw [hkj, hkey])


/-! ### Behaviour of the small-map operations on well-formed maps -/

theorem ctrlEmpty_ne_h2 (h : Nat) : ctrlEmpty ≠ h2 h := by
  have := h2_lt h
  unfold ctrlEmpty
  omega

/-- Inserting a key absent from a well-formed, non-full small map claims the
first empty slot: used grows by one, the new key maps to the new element, and
every other key is unaffected. -/
theorem putSlotSmall_fresh {K V : Type} [DecidableEq K] (hashF : K → Nat)
    (m : SmallMap K V) (hWF : SmallWF hashF m) (k : K) (v : V)
    (hused : m.used < groupSlots) (hnk : ¬ HasKey m k) :
    ∃ m2, putSlotSmall m (hashF k) k v = some m2 ∧ SmallWF hashF m2 ∧
      m2.used = m.used + 1 ∧
      (∀ k2, HasKey m2 k2 ↔ (k2 = k ∨ HasKey m k2)) ∧
      getSmall hashF m2 k = some v ∧
      (∀ k2, k2 ≠ k → getSmall hashF m2 k2 = getSmall hashF m k2) := by
  have hfind : (m.group.matchH2 (h2 (hashF k))).find?
      (fun i => decide (m.group.keys i = k)) = none := by
    rw [matchH2_find_eq]
    exact findKeySlot_eq_none hashF m hWF k hnk
  have hcnt : occupiedCount m.group < 8 := by
    have := hWF.used_eq
    simp only [groupSlots] at hused
    omega
  obtain ⟨i, rest, hm⟩ := List.exists_cons_of_ne_nil (matchEmpty_ne_nil m.group hcnt)
  have hemp : m.group.ctrls i = ctrlEmpty := matchEmpty_head m.group hm
  have hused2 : (m.used + 1) % U64 = m.used + 1 := by
    simp only [groupSlots] at hused
    rw [U64_eq]
    omega
  set M2 : SmallMap K V :=
    { used := m.used + 1,
      group := ((m.group.setKey i k).setElem i v).setCtrl i (h2 (hashF k)) } with hM2
  have hctrls2 : M2.group.ctrls = Function.update m.group.ctrls i (h2 (hashF k)) := rfl
  have hkeys2 : M2.group.keys = Function.update m.group.keys i k := rfl
  have helems2 : M2.group.elems = Function.update m.group.elems i v := rfl
  have hstep : putSlotSmall m (hashF k) k v = some M2 := by
    simp only [putSlotSmall, hfind, hm, hused2, hM2]
  have hWF2 : SmallWF hashF M2 := by
    have hocc := occupiedCount_update m.group M2.group i (h2 (hashF k)) hctrls2
    rw [if_neg (by simp [hemp]), if_pos (Ne.symm (ctrlEmpty_ne_h2 (hashF k)))] at hocc
    refine ⟨?_, ?_, ?_⟩
    · have := hWF.used_eq
      show m.used + 1 = occupiedCount M2.group
      omega
    · intro j hj
      rw [hctrls2] at hj
      rw [hctrls2, hkeys2]
      simp only [Function.update_apply] at hj ⊢
      by_cases hji : j = i
      · simp [hji]
      · simp only [if_neg hji] at hj ⊢
        exact hWF.ctrl_occ j hj
    · intro j1 j2 h1 h2x hk12
      rw [hctrls2] at h1 h2x
      rw [hkeys2] at hk12
      simp only [Function.update_apply] at h1 h2x hk12
      by_cases hj1 : j1 = i <;> by_cases hj2 : j2 = i
      · rw [hj1, hj2]
      · exfalso
        simp only [if_pos hj1, if_neg hj2] at hk12
        simp only [if_neg hj2] at h2x
        exact hnk ⟨j2, h2x, hk12.symm⟩
      · exfalso
        simp only [if_neg hj1, if_pos hj2] at hk12
        simp only [if_neg hj1] at h1
        exact hnk ⟨j1, h1, hk12⟩
      · simp only [if_neg hj1, if_neg hj2] at h1 h2x hk12
        exact hWF.keys_inj j1 j2 h1 h2x hk12
  have hhk : ∀ k2, HasKey M2 k2 ↔ (k2 = k ∨ HasKey m k2) := by
    intro k2
    constructor
    · rintro ⟨j, hj, hkj⟩
      rw [hctrls2] at hj
      rw [hkeys2] at hkj
      simp only [Function.update_apply] at hj hkj
      by_cases hji : j = i
      · simp only [if_pos hji] at hkj
        exact Or.inl hkj.symm
      · simp only [if_neg hji] at hj hkj
        exact Or.inr ⟨j, hj, hkj⟩
    · rintro (hk2 | ⟨j, hj, hkj⟩)
      · refine ⟨i, ?_, ?_⟩
        · rw [hctrls2, Function.update_same]
          exact Ne.symm (ctrlEmpty_ne_h2 (hashF k))
        · rw [hkeys2, Function.update_same, hk2]
      · have hji : j ≠ i := by
          intro h
          rw [h, hemp] at hj
          exact hj rfl
        refine ⟨j, ?_, ?_⟩
        · rw [hctrls2, Function.update_noteq hji]
          exact hj
        · rw [hkeys2, Function.update_noteq hji]
          exact hkj
  have hget1 : getSmall hashF M2 k = some v := by
    have hoccI : M2.group.ctrls i ≠ ctrlEmpty := by
      rw [hctrls2, Function.update_same]
      exact Ne.symm (ctrlEmpty_ne_h2 (hashF k))
    have hkeyI : M2.group.keys i = k := by
      rw [hkeys2, Function.update_same]
    unfold getSmall getWithKeySmall
    rw [findKeySlot_eq_some hashF M2 hWF2 hoccI hkeyI]
    rw [hkeys2, helems2]
    simp [Function.update_same]
  have hget2 : ∀ k2, k2 ≠ k → getSmall hashF M2 k2 = getSmall hashF m k2 := by
    intro k2 hne
    unfold getSmall getWithKeySmall
    have hcong : findKeySlot M2.group (h2 (hashF k2)) k2 =
        findKeySlot m.group (h2 (hashF k2)) k2 := by
      unfold findKeySlot
      apply find?_congr
      intro j _
      rw [hctrls2, hkeys2]
      by_cases hji : j = i
      · subst hji
        rw [Function.update_same, Function.update_same, hemp]
        simp [Ne.symm hne, ctrlEmpty_ne_h2 (hashF k2)]
      · rw [Function.update_noteq hji, Function.update_noteq hji]
    rw [hcong]
    cases hres : findKeySlot m.group (h2 (hashF k2)) k2 with
    | none => rfl
    | some j =>
        have hpred := List.find?_some hres
        simp only [Bool.and_eq_true, decide_eq_true_eq] at hpred
        have hji : j ≠ i := by
          intro h
          rw [h, hemp] at hpred
          exact ctrlEmpty_ne_h2 (hashF k2) hpred.1
        rw [hkeys2, helems2]
        simp [Function.update_noteq hji]
  exact ⟨M2, hstep, hWF2, rfl, hhk, hget1, hget2⟩


/-- Inserting a key already present in a well-formed small map overwrites the
element in place: used is unchanged, the key maps to the new element, and
every other key is unaffected. -/
theorem putSlotSmall_existing {K V : Type} [DecidableEq K] (hashF : K → Nat)
    (m : SmallMap K V) (hWF : SmallWF hashF m) (k : K) (v : V) (hk : HasKey m k) :
    ∃ m2, putSlotSmall m (hashF k) k v = some m2 ∧ SmallWF hashF m2 ∧
      m2.used = m.used ∧
      (∀ k2, HasKey m2 k2 ↔ HasKey m k2) ∧
      getSmall hashF m2 k = some v ∧
      (∀ k2, k2 ≠ k → getSmall hashF m2 k2 = getSmall hashF m k2) := by
  obtain ⟨i0, hocc, hkey⟩ := hk
  have hfind : (m.group.matchH2 (h2 (hashF k))).find?
      (fun i => decide (m.group.keys i = k)) = some i0 := by
    rw [matchH2_find_eq]
    exact findKeySlot_eq_some hashF m hWF hocc hkey
  set M2 : SmallMap K V := { m with group := m.group.setElem i0 v } with hM2
  have helems2 : M2.group.elems = Function.update m.group.elems i0 v := rfl
  have hstep : putSlotSmall m (hashF k) k v = some M2 := by
    simp only [putSlotSmall, hfind, hM2]
  have hWF2 : SmallWF hashF M2 := ⟨hWF.used_eq, hWF.ctrl_occ, hWF.keys_inj⟩
  have hfind2 : ∀ h k2, findKeySlot M2.group h k2 = findKeySlot m.group h k2 :=
    fun _ _ => rfl
  refine ⟨M2, hstep, hWF2, rfl, fun k2 => Iff.rfl, ?_, ?_⟩
  · unfold getSmall getWithKeySmall
    rw [hfind2, findKeySlot_eq_some hashF m hWF hocc hkey, helems2]
    simp [Function.update_same]
  · intro k2 hne
    unfold getSmall getWithKeySmall
    rw [hfind2]
    cases hres : findKeySlot m.group (h2 (hashF k2)) k2 with
    | none => rfl
    | some j =>
        have hpred := List.find?_some hres
        simp only [Bool.and_eq_true, decide_eq_true_eq] at hpred
        have hji : j ≠ i0 := by
          intro h
          rw [h, hkey] at hpred
          exact hne hpred.2.symm
        rw [helems2]
        simp [Function.update_noteq hji]

/-- Deleting a key present in a well-formed small map empties its slot
directly: used drops by one, the key is gone, and every other key is
unaffected. -/
theorem deleteSmall_found {K V : Type} [DecidableEq K] [Inhabited K] [Inhabited V]
    (hashF : K → Nat) (m : SmallMap K V) (hWF : SmallWF hashF m) {k : K}
    (hk : HasKey m k) :
    SmallWF hashF (deleteSmall m (hashF k) k) ∧
    (deleteSmall m (hashF k) k).used + 1 = m.used ∧
    (∀ k2, HasKey (deleteSmall m (hashF k) k) k2 ↔ (k2 ≠ k ∧ HasKey m k2)) ∧
    getSmall hashF (deleteSmall m (hashF k) k) k = none ∧
    (∀ k2, k2 ≠ k →
      getSmall hashF (deleteSmall m (hashF k) k) k2 = getSmall hashF m k2) := by
  obtain ⟨i0, hocc, hkey⟩ := hk
  have hfind : (m.group.matchH2 (h2 (hashF k))).find?
      (fun i => decide (m.group.keys i = k)) = some i0 := by
    rw [matchH2_find_eq]
    exact findKeySlot_eq_some hashF m hWF hocc hkey
  have hused1 : 1 ≤ m.used := hWF.used_eq ▸ occupiedCount_pos m.group i0 hocc
  have husedle : m.used ≤ 8 := hWF.used_eq ▸ occupiedCount_le m.group
  have husedw : (m.used + (U64 - 1)) % U64 = m.used - 1 := by
    rw [U64_eq]
    omega
  set M2 : SmallMap K V :=
    { used := m.used - 1,
      group := ((m.group.setKey i0 default).setElem i0 default).setCtrl i0 ctrlEmpty }
    with hM2
  have hctrls2 : M2.group.ctrls = Function.update m.group.ctrls i0 ctrlEmpty := rfl
  have hkeys2 : M2.group.keys = Function.update m.group.keys i0 default := rfl
  have helems2 : M2.group.elems = Function.update m.group.elems i0 default := rfl
  have hstep : deleteSmall m (hashF k) k = M2 := by
    simp only [deleteSmall, hfind, husedw, hM2]
  have hWF2 : SmallWF hashF M2 := by
    have hoccu := occupiedCount_update m.group M2.group i0 ctrlEmpty hctrls2
    rw [if_pos hocc, if_neg (by simp)] at hoccu
    refine ⟨?_, ?_, ?_⟩
    · have := hWF.used_eq
      show m.used - 1 = occupiedCount M2.group
      omega
    · intro j hj
      rw [hctrls2] at hj
      rw [hctrls2, hkeys2]
      by_cases hji : j = i0
      · exfalso
        rw [hji, Function.update_same] at hj
        exact hj rfl
      · rw [Function.update_noteq hji] at hj
        rw [Function.update_noteq hji, Function.update_noteq hji]
        exact hWF.ctrl_occ j hj
    · intro j1 j2 h1 h2x hk12
      rw [hctrls2] at h1 h2x
      rw [hkeys2] at hk12
      by_cases hj1 : j1 = i0
      · exfalso
        rw [hj1, Function.update_same] at h1
        exact h1 rfl
      by_cases hj2 : j2 = i0
      · exfalso
        rw [hj2, Function.update_same] at h2x
        exact h2x rfl
      rw [Function.update_noteq hj1] at h1
      rw [Function.update_noteq hj2] at h2x
      rw [Function.update_noteq hj1, Function.update_noteq hj2] at hk12
      exact hWF.keys_inj j1 j2 h1 h2x hk12
  rw [hstep]
  have husedM2 : M2.used + 1 = m.used := by
    show m.used - 1 + 1 = m.used
    omega
  refine ⟨hWF2, husedM2, ?_, ?_, ?_⟩
  · intro k2
    constructor
    · rintro ⟨j, hj, hkj⟩
      rw [hctrls2] at hj
      rw [hkeys2] at hkj
      have hji : j ≠ i0 := by
        intro h
        rw [h, Function.update_same] at hj
        exact hj rfl
      rw [Function.update_noteq hji] at hj hkj
      refine ⟨?_, j, hj, hkj⟩
      intro hkk
      rw [hkk] at hkj
      exact hji (hWF.keys_inj j i0 hj hocc (hkj.trans hkey.symm))
    · rintro ⟨hne, j, hj, hkj⟩
      have hji : j ≠ i0 := by
        intro h
        rw [h, hkey] at hkj
        exact hne hkj.symm
      refine ⟨j, ?_, ?_⟩
      · rw [hctrls2, Function.update_noteq hji]
        exact hj
      · rw [hkeys2, Function.update_noteq hji]
        exact hkj
  · unfold getSmall getWithKeySmall
    have hnone : findKeySlot M2.group (h2 (hashF k)) k = none := by
      apply List.find?_eq_none.mpr
      intro j _
      simp only [Bool.and_eq_true, decide_eq_true_eq, not_and]
      rw [hctrls2, hkeys2]
      by_cases hji : j = i0
      · rw [hji, Function.update_same]
        intro habs
        exact absurd habs (ctrlEmpty_ne_h2 (hashF k))
      · rw [Function.update_noteq hji, Function.update_noteq hji]
        intro hcj hkj
        have hoccj : m.group.ctrls j ≠ ctrlEmpty := by
          rw [hcj]
          exact Ne.symm (ctrlEmpty_ne_h2 (hashF k))
        exact hji (hWF.keys_inj j i0 hoccj hocc (hkj.trans hkey.symm))
    rw [hnone]
    rfl
  · intro k2 hne
    unfold getSmall getWithKeySmall
    have hcong : findKeySlot M2.group (h2 (hashF k2)) k2 =
        findKeySlot m.group (h2 (hashF k2)) k2 := by
      unfold findKeySlot
      apply find?_congr
      intro j _
      rw [hctrls2, hkeys2]
      by_cases hji : j = i0
      · subst hji
        rw [Function.update_same, Function.update_same, hkey]
        simp [Ne.symm hne, ctrlEmpty_ne_h2 (hashF k2)]
      · rw [Function.update_noteq hji, Function.update_noteq hji]
    rw [hcong]
    cases hres : findKeySlot m.group (h2 (hashF k2)) k2 with
    | none => rfl
    | some j =>
        have hpred := List.find?_some hres
        simp only [Bool.and_eq_true, decide_eq_true_eq] at hpred
        have hji : j ≠ i0 := by
          intro h
          rw [h, hkey] at hpred
          exact hne hpred.2.symm
        rw [hkeys2, helems2]
        simp [Function.update_noteq hji]


theorem emptySmallMap_WF (K V : Type) [DecidableEq K] [Inhabited K] [Inhabited V]
    (hashF : K → Nat) : SmallWF hashF (emptySmallMap K V) := by
  refine ⟨?_, ?_, ?_⟩
  · show 0 = occupiedCount (emptySmallMap K V).group
    unfold occupiedCount emptySmallMap
    simp
  · intro j hj
    exact absurd rfl hj
  · intro j1 j2 h1 _ _
    exact absurd rfl h1

theorem emptySmallMap_hasKey (K V : Type) [Inhabited K] [Inhabited V] (k : K) :
    ¬ HasKey (emptySmallMap K V) k := by
  rintro ⟨j, hj, _⟩
  exact hj rfl

/-- C1: starting from an empty small map, putting five distinct keys and then
deleting the third leaves a map where the third key is absent, the other four
keys map to their put values, and used is 4. -/
theorem small_map_five_key_scenario {K V : Type} [DecidableEq K] [Inhabited K]
    [Inhabited V] (hashF : K → Nat) (k1 k2 k3 k4 k5 : K) (v1 v2 v3 v4 v5 : V)
    (h12 : k1 ≠ k2) (h13 : k1 ≠ k3) (h14 : k1 ≠ k4) (h15 : k1 ≠ k5)
    (h23 : k2 ≠ k3) (h24 : k2 ≠ k4) (h25 : k2 ≠ k5)
    (h34 : k3 ≠ k4) (h35 : k3 ≠ k5) (h45 : k4 ≠ k5) :
    ∃ mf : SmallMap K V,
      runSmallOps hashF (emptySmallMap K V)
        [SmallOp.put k1 v1, SmallOp.put k2 v2, SmallOp.put k3 v3,
         SmallOp.put k4 v4, SmallOp.put k5 v5, SmallOp.del k3] = some mf ∧
      getSmall hashF mf k3 = none ∧
      getSmall hashF mf k1 = some v1 ∧ getSmall hashF mf k2 = some v2 ∧
      getSmall hashF mf k4 = some v4 ∧ getSmall hashF mf k5 = some v5 ∧
      mf.used = 4 := by
  have hW0 := emptySmallMap_WF K V hashF
  have hu0 : (emptySmallMap K V).used = 0 := rfl
  -- put k1
  obtain ⟨m1, e1, w1, u1, hk1, g1, p1⟩ :=
    putSlotSmall_fresh hashF (emptySmallMap K V) hW0 k1 v1
      (by rw [hu0]; norm_num [groupSlots]) (emptySmallMap_hasKey K V k1)
  have u1n : m1.used = 1 := by rw [u1, hu0]
  have hn1 : ∀ k, k ≠ k1 → ¬ HasKey m1 k := by
    intro k hk habs
    rcases (hk1 k).mp habs with h | h
    · exact hk h
    · exact emptySmallMap_hasKey K V k h
  -- put k2
  obtain ⟨m2, e2, w2, u2, hk2, g2, p2⟩ :=
    putSlotSmall_fresh hashF m1 w1 k2 v2
      (by rw [u1n]; norm_num [groupSlots]) (hn1 k2 (Ne.symm h12))
  have u2n : m2.used = 2 := by rw [u2, u1n]
  have hn2 : ∀ k, k ≠ k1 → k ≠ k2 → ¬ HasKey m2 k := by
    intro k hka hkb habs
    rcases (hk2 k).mp habs with h | h
    · exact hkb h
    · exact hn1 k hka h
  -- put k3
  obtain ⟨m3, e3, w3, u3, hk3, g3, p3⟩ :=
    putSlotSmall_fresh hashF m2 w2 k3 v3
      (by rw [u2n]; norm_num [groupSlots]) (hn2 k3 (Ne.symm h13) (Ne.symm h23))
  have u3n : m3.used = 3 := by rw [u3, u2n]
  have hn3 : ∀ k, k ≠ k1 → k ≠ k2 → k ≠ k3 → ¬ HasKey m3 k := by
    intro k hka hkb hkc habs
    rcases (hk3 k).mp habs with h | h
    · exact hkc h
    · exact hn2 k hka hkb h
  -- put k4
  obtain ⟨m4, e4, w4, u4, hk4, g4, p4⟩ :=
    putSlotSmall_fresh hashF m3 w3 k4 v4
      (by rw [u3n]; norm_num [groupSlots])
      (hn3 k4 (Ne.symm h14) (Ne.symm h24) (Ne.symm h34))
  have u4n : m4.used = 4 := by rw [u4, u3n]
  have hn4 : ∀ k, k ≠ k1 → k ≠ k2 → k ≠ k3 → k ≠ k4 → ¬ HasKey m4 k := by
    intro k hka hkb hkc hkd habs
    rcases (hk4 k).mp habs with h | h
    · exact hkd h
    · exact hn3 k hka hkb hkc h
  -- put k5
  obtain ⟨m5, e5, w5, u5, hk5, g5, p5⟩ :=
    putSlotSmall_fresh hashF m4 w4 k5 v5
      (by rw [u4n]; norm_num [groupSlots])
      (hn4 k5 (Ne.symm h15) (Ne.symm h25) (Ne.symm h35) (Ne.symm h45))
  have u5n : m5.used = 5 := by rw [u5, u4n]
  -- k3 is present in m5
  have hk3in : HasKey m5 k3 :=
    (hk5 k3).mpr (Or.inr ((hk4 k3).mpr (Or.inr ((hk3 k3).mpr (Or.inl rfl)))))
  -- delete k3
  obtain ⟨wd, ud, hkd, gd, pd⟩ := deleteSmall_found hashF m5 w5 hk3in
  refine ⟨deleteSmall m5 (hashF k3) k3, ?_, gd, ?_, ?_, ?_, ?_, ?_⟩
  · -- evaluate the operation sequence
    have s1 : applySmallOp hashF (emptySmallMap K V) (SmallOp.put k1 v1) = some m1 := by
      simp only [applySmallOp]
      rw [if_pos (by rw [hu0]; norm_num [groupSlots])]
      exact e1
    have s2 : applySmallOp hashF m1 (SmallOp.put k2 v2) = some m2 := by
      simp only [applySmallOp]
      rw [if_pos (by rw [u1n]; norm_num [groupSlots])]
      exact e2
    have s3 : applySmallOp hashF m2 (SmallOp.put k3 v3) = some m3 := by
      simp only [applySmallOp]
      rw [if_pos (by rw [u2n]; norm_num [groupSlots])]
      exact e3
    have s4 : applySmallOp hashF m3 (SmallOp.put k4 v4) = some m4 := by
      simp only [applySmallOp]
      rw [if_pos (by rw [u3n]; norm_num [groupSlots])]
      exact e4
    have s5 : applySmallOp hashF m4 (SmallOp.put k5 v5) = some m5 := by
      simp only [applySmallOp]
      rw [if_pos (by rw [u4n]; norm_num [groupSlots])]
      exact e5
    have s6 : applySmallOp hashF m5 (SmallOp.del k3) =
        some (deleteSmall m5 (hashF k3) k3) := rfl
    simp only [runSmallOps, s1, s2, s3, s4, s5, s6, Option.some_bind]
  · rw [pd k1 h13, p5 k1 h15, p4 k1 h14, p3 k1 h13, p2 k1 h12]
    exact g1
  · rw [pd k2 h23, p5 k2 h25, p4 k2 h24, p3 k2 h23]
    exact g2
  · rw [pd k4 (Ne.symm h34), p5 k4 h45]
    exact g4
  · rw [pd k5 (Ne.symm h35)]
    exact g5
  · omega


/-! ### C3: small maps never contain tombstones -/

/-- Every control byte is either the empty marker or an H2 value (< 128). -/
def CtrlsSmallRange {K V : Type} (g : Group K V) : Prop :=
  ∀ i, g.ctrls i = ctrlEmpty ∨ g.ctrls i < 128

/-- No control byte is the deleted (tombstone) marker. -/
def NoTombstones {K V : Type} (g : Group K V) : Prop :=
  ∀ i, g.ctrls i ≠ ctrlDeleted

instance {K V : Type} (g : Group K V) : Decidable (NoTombstones g) := by
  unfold NoTombstones; infer_instance

theorem noTombstones_of_range {K V : Type} (g : Group K V)
    (hr : CtrlsSmallRange g) : NoTombstones g := by
  intro i
  rcases hr i with h | h
  · rw [h]
    decide
  · intro habs
    rw [habs] at h
    exact absurd h (by decide)

theorem putSlotSmall_range {K V : Type} [DecidableEq K] (m : SmallMap K V)
    (hash : Nat) (k : K) (v : V) (m2 : SmallMap K V)
    (hstep : putSlotSmall m hash k v = some m2) (hr : CtrlsSmallRange m.group) :
    CtrlsSmallRange m2.group := by
  unfold putSlotSmall at hstep
  cases hfind : (m.group.matchH2 (h2 hash)).find?
      (fun i => decide (m.group.keys i = k)) with
  | some i =>
      rw [hfind] at hstep
      dsimp only at hstep
      rw [← Option.some.inj hstep]
      exact hr
  | none =>
      rw [hfind] at hstep
      dsimp only at hstep
      cases hempty : m.group.matchEmpty with
      | nil =>
          rw [hempty] at hstep
          exact absurd hstep (by simp)
      | cons i rest =>
          rw [hempty] at hstep
          dsimp only at hstep
          rw [← Option.some.inj hstep]
          intro j
          show Function.update m.group.ctrls i (h2 hash) j = ctrlEmpty ∨
            Function.update m.group.ctrls i (h2 hash) j < 128
          by_cases hji : j = i
          · rw [hji, Function.update_same]
            exact Or.inr (h2_lt hash)
          · rw [Function.update_noteq hji]
            exact hr j

theorem deleteSmall_range {K V : Type} [DecidableEq K] [Inhabited K] [Inhabited V]
    (m : SmallMap K V) (hash : Nat) (k : K) (hr : CtrlsSmallRange m.group) :
    CtrlsSmallRange (deleteSmall m hash k).group := by
  unfold deleteSmall
  cases hfind : (m.group.matchH2 (h2 hash)).find?
      (fun i => decide (m.group.keys i = k)) with
  | some i =>
      dsimp only
      intro j
      show Function.update m.group.ctrls i ctrlEmpty j = ctrlEmpty ∨
        Function.update m.group.ctrls i ctrlEmpty j < 128
      by_cases hji : j = i
      · rw [hji, Function.update_same]
        exact Or.inl rfl
      · rw [Function.update_noteq hji]
        exact hr j
  | none => exact hr

theorem applySmallOp_range {K V : Type} [DecidableEq K] [Inhabited K] [Inhabited V]
    (hashF : K → Nat) (m m2 : SmallMap K V) (op : SmallOp K V)
    (hstep : applySmallOp hashF m op = some m2) (hr : CtrlsSmallRange m.group) :
    CtrlsSmallRange m2.group := by
  cases op with
  | put k v =>
      simp only [applySmallOp] at hstep
      by_cases hu : m.used < groupSlots
      · rw [if_pos hu] at hstep
        exact putSlotSmall_range m (hashF k) k v m2 hstep hr
      · rw [if_neg hu] at hstep
        exact absurd hstep (by simp)
  | del k =>
      simp only [applySmallOp] at hstep
      rw [← Option.some.inj hstep]
      exact deleteSmall_range m (hashF k) k hr
  | clear =>
      simp only [applySmallOp, clearSmall] at hstep
      rw [← Option.some.inj hstep]
      intro j
      exact Or.inl rfl

theorem runSmallOps_range {K V : Type} [DecidableEq K] [Inhabited K] [Inhabited V]
    (hashF : K → Nat) (ops : List (SmallOp K V)) :
    ∀ m mf, CtrlsSmallRange m.group → runSmallOps hashF m ops = some mf →
      CtrlsSmallRange mf.group := by
  induction ops with
  | nil =>
      intro m mf hr hrun
      simp only [runSmallOps] at hrun
      rw [← Option.some.inj hrun]
      exact hr
  | cons op ops ih =>
      intro m mf hr hrun
      simp only [runSmallOps] at hrun
      cases hstep : applySmallOp hashF m op with
      | none => rw [hstep] at hrun; exact absurd hrun (by simp)
      | some m2 =>
          rw [hstep] at hrun
          simp only [Option.some_bind] at hrun
          exact ih m2 mf (applySmallOp_range hashF m m2 op hstep hr) hrun

/-- C3: starting from a fresh small map, any sequence of small-path Put,
Delete and Clear operations leaves no tombstone control byte: deleteSmall
marks deleted slots empty directly. -/
theorem small_map_no_tombstones {K V : Type} [DecidableEq K] [Inhabited K]
    [Inhabited V] (hashF : K → Nat) (ops : List (SmallOp K V)) (mf : SmallMap K V)
    (hrun : runSmallOps hashF (emptySmallMap K V) ops = some mf) :
    NoTombstones mf.group := by
  apply noTombstones_of_range
  apply runSmallOps_range hashF ops (emptySmallMap K V) mf ?_ hrun
  intro j
  exact Or.inl rfl

/-- Witness for small_map_no_tombstones on a concrete run. -/
theorem small_map_no_tombstones_witness :
    runSmallOps (fun n : Nat => n) (emptySmallMap Nat Nat)
      [SmallOp.put 1 10, SmallOp.clear] = some (emptySmallMap Nat Nat) ∧
    NoTombstones (emptySmallMap Nat Nat).group :=
  ⟨rfl, small_map_no_tombstones (fun n : Nat => n) [SmallOp.put 1 10, SmallOp.clear]
    (emptySmallMap Nat Nat) rfl⟩

/-- C4: when used is below the group size and equals the number of occupied
control bytes, the matchEmpty mask is nonzero, so putSlotSmall cannot reach
the fatal "small map with no empty slot" branch. -/
theorem putSlotSmall_no_fatal {K V : Type} [DecidableEq K] (m : SmallMap K V)
    (hash : Nat) (k : K) (v : V) (hused : m.used < groupSlots)
    (hinv : m.used = occupiedCount m.group) :
    m.group.matchEmpty ≠ [] ∧ putSlotSmall m hash k v ≠ none := by
  have hne : m.group.matchEmpty ≠ [] := by
    apply matchEmpty_ne_nil
    simp only [groupSlots] at hused
    omega
  refine ⟨hne, ?_⟩
  unfold putSlotSmall
  cases hfind : (m.group.matchH2 (h2 hash)).find?
      (fun i => decide (m.group.keys i = k)) with
  | some i => simp
  | none =>
      cases hempty : m.group.matchEmpty with
      | nil => exact absurd hempty hne
      | cons i rest => simp

/-- Witness for putSlotSmall_no_fatal at the empty small map. -/
theorem putSlotSmall_no_fatal_witness :
    (emptySmallMap Nat Nat).used < groupSlots ∧
    (emptySmallMap Nat Nat).used = occupiedCount (emptySmallMap Nat Nat).group ∧
    ((emptySmallMap Nat Nat).group.matchEmpty ≠ [] ∧
     putSlotSmall (emptySmallMap Nat Nat) 3 3 30 ≠ none) :=
  ⟨by decide, by decide, putSlotSmall_no_fatal (emptySmallMap Nat Nat) 3 3 30
    (by decide) (by decide)⟩

/-- Witness for small_map_five_key_scenario at concrete keys and values. -/
theorem small_map_five_key_scenario_witness :
    ((1 : Nat) ≠ 2 ∧ (1 : Nat) ≠ 3 ∧ (1 : Nat) ≠ 4 ∧ (1 : Nat) ≠ 5 ∧
     (2 : Nat) ≠ 3 ∧ (2 : Nat) ≠ 4 ∧ (2 : Nat) ≠ 5 ∧
     (3 : Nat) ≠ 4 ∧ (3 : Nat) ≠ 5 ∧ (4 : Nat) ≠ 5) ∧
    (∃ mf : SmallMap Nat Nat,
      runSmallOps (fun n : Nat => n) (emptySmallMap Nat Nat)
        [SmallOp.put 1 11, SmallOp.put 2 12, SmallOp.put 3 13,
         SmallOp.put 4 14, SmallOp.put 5 15, SmallOp.del 3] = some mf ∧
      getSmall (fun n : Nat => n) mf 3 = none ∧
      getSmall (fun n : Nat => n) mf 1 = some 11 ∧
      getSmall (fun n : Nat => n) mf 2 = some 12 ∧
      getSmall (fun n : Nat => n) mf 4 = some 14 ∧
      getSmall (fun n : Nat => n) mf 5 = some 15 ∧
      mf.used = 4) :=
  ⟨by decide,
   small_map_five_key_scenario (fun n : Nat => n) 1 2 3 4 5 11 12 13 14 15
     (by decide) (by decide) (by decide) (by decide) (by decide) (by decide)
     (by decide) (by decide) (by decide) (by decide)⟩


/-! ## Map directory maintenance: installTableSplit (src/unnamed/part_002)

Tables are heap objects aliased by multiple directory slots; they are
modelled as identifiers (TableId) with a store tabs mapping each identifier
to its mutable metadata.  Only the fields read or written by
installTableSplit and replaceTable are modelled: localDepth and index (the
table struct itself, table.go, is not in the excerpt).  The uint8
subtraction globalDepth - localDepth is written as Nat subtraction, which
agrees with Go whenever localDepth <= globalDepth (the directory
invariant). -/

abbrev TableId := Nat

structure TableMeta where
  localDepth : Nat
  index : Nat
  deriving DecidableEq

structure DirState where
  globalDepth : Nat
  dir : List TableId
  tabs : TableId → TableMeta

/-- Mutation of one table object: t.index = idx. -/
def setIndex (tabs : TableId → TableMeta) (t : TableId) (idx : Nat) :
    TableId → TableMeta :=
  Function.update tabs t { tabs t with index := idx }

/-- The directory-growing loop of installTableSplit: visit each old
directory position i in order; the table t found there has its index set to
2*i when its current index still equals i (first encounter). -/
def growTabs (dir : List TableId) (tabs : TableId → TableMeta) :
    TableId → TableMeta :=
  (List.range dir.length).foldl
    (fun tb i =>
      if (tb (dir.getD i 0)).index = i then setIndex tb (dir.getD i 0) (2 * i) else tb)
    tabs

/-- The new directory of the growing branch: newDir[2i] = newDir[2i+1] = dir[i]. -/
def interleave {A : Type} : List A → List A
  | [] => []
  | a :: l => a :: a :: interleave l

/-- Map.replaceTable: write nt into the 1 << (globalDepth - localDepth)
directory slots starting at nt.index. -/
def replaceTable (s : DirState) (nt : TableId) : DirState :=
  let entries := 2 ^ (s.globalDepth - (s.tabs nt).localDepth)
  let newDir := (List.range entries).foldl
    (fun d i => d.set ((s.tabs nt).index + i) nt) s.dir
  { s with dir := newDir }

/-- Map.installTableSplit: grow the directory first when the split table has
localDepth == globalDepth, then install left at the old index and right
immediately after the span of left. -/
def installTableSplit (s : DirState) (old left right : TableId) : DirState :=
  let s1 := if (s.tabs old).localDepth = s.globalDepth then
      { globalDepth := s.globalDepth + 1,
        dir := interleave s.dir,
        tabs := growTabs s.dir s.tabs }
    else s
  let tabs2 := setIndex s1.tabs left (s1.tabs old).index
  let s2 := { s1 with tabs := tabs2 }
  let s3 := replaceTable s2 left
  let entries := 2 ^ (s3.globalDepth - (s3.tabs left).localDepth)
  let tabs4 := setIndex s3.tabs right ((s3.tabs left).index + entries)
  let s4 := { s3 with tabs := tabs4 }
  replaceTable s4 right

theorem interleave_length {A : Type} (l : List A) :
    (interleave l).length = 2 * l.length := by
  induction l with
  | nil => rfl
  | cons a l ih =>
      show (interleave l).length + 1 + 1 = 2 * (l.length + 1)
      omega

theorem interleave_getD {A : Type} (l : List A) (d : A) (j : Nat)
    (hj : j < 2 * l.length) : (interleave l).getD j d = l.getD (j / 2) d := by
  induction l generalizing j with
  | nil => simp at hj
  | cons a l ih =>
      cases j with
      | zero => rfl
      | succ j1 =>
          cases j1 with
          | zero => rfl
          | succ n =>
              have hn : n < 2 * l.length := by
                simp only [List.length_cons] at hj
                omega
              have h2 : (n + 1 + 1) / 2 = n / 2 + 1 := by omega
              rw [h2]
              show (interleave l).getD n d = (a :: l).getD (n / 2 + 1) d
              rw [List.getD_cons_succ]
              exact ih n hn

theorem setIndex_same (tabs : TableId → TableMeta) (t : TableId) (v : Nat) :
    setIndex tabs t v t = { tabs t with index := v } := by
  unfold setIndex
  rw [Function.update_same]

theorem setIndex_other (tabs : TableId → TableMeta) (t t2 : TableId) (v : Nat)
    (h : t2 ≠ t) : setIndex tabs t v t2 = tabs t2 := by
  unfold setIndex
  rw [Function.update_noteq h]

/-- Positions that never hold t leave the store entry of t untouched. -/
theorem growTabs_step_untouched (dir : List TableId) (t : TableId)
    (l : List Nat) (tb : TableId → TableMeta)
    (h : ∀ i ∈ l, dir.getD i 0 ≠ t) :
    (l.foldl (fun tb i =>
        if (tb (dir.getD i 0)).index = i
        then setIndex tb (dir.getD i 0) (2 * i) else tb) tb) t = tb t := by
  induction l generalizing tb with
  | nil => rfl
  | cons i l ih =>
      have hi : dir.getD i 0 ≠ t := h i (List.mem_cons_self i l)
      have hrest : ∀ i2 ∈ l, dir.getD i2 0 ≠ t :=
        fun i2 hi2 => h i2 (List.mem_cons_of_mem i hi2)
      rw [List.foldl_cons, ih _ hrest]
      by_cases hc : (tb (dir.getD i 0)).index = i
      · rw [if_pos hc, setIndex_other _ _ _ _ (Ne.symm hi)]
      · rw [if_neg hc]

/-- Effect of the growing loop on the one table that occupies exactly the
directory slot equal to its stored index: its index doubles. -/
theorem growTabs_at_index (dir : List TableId) (tabs : TableId → TableMeta)
    (t : TableId) (hidx : (tabs t).index < dir.length)
    (hspan : ∀ j, j < dir.length → (dir.getD j 0 = t ↔ j = (tabs t).index)) :
    growTabs dir tabs t = { tabs t with index := 2 * (tabs t).index } := by
  unfold growTabs
  have hsplit : List.range dir.length =
      (List.range (tabs t).index ++ [(tabs t).index]) ++
      (List.range (dir.length - (tabs t).index - 1)).map ((tabs t).index + 1 + ·) := by
    rw [← List.range_succ]
    rw [← List.range_add]
    congr 1
    omega
  rw [hsplit, List.foldl_append, List.foldl_append]
  have hpre : ∀ i ∈ List.range (tabs t).index, dir.getD i 0 ≠ t := by
    intro i hi
    have hilt : i < (tabs t).index := List.mem_range.mp hi
    intro habs
    have := (hspan i (by omega)).mp habs
    omega
  have hpost : ∀ i ∈ (List.range (dir.length - (tabs t).index - 1)).map
      ((tabs t).index + 1 + ·), dir.getD i 0 ≠ t := by
    intro i hi
    obtain ⟨x, hx, hix⟩ := List.mem_map.mp hi
    have hxlt : x < dir.length - (tabs t).index - 1 := List.mem_range.mp hx
    intro habs
    have := (hspan i (by omega)).mp habs
    omega
  have hdirt : dir.getD (tabs t).index 0 = t := (hspan _ hidx).mpr rfl
  have htb1 := growTabs_step_untouched dir t (List.range (tabs t).index) tabs hpre
  rw [growTabs_step_untouched dir t _ _ hpost]
  rw [List.foldl_cons, List.foldl_nil, hdirt, htb1]
  rw [if_pos rfl, setIndex_same, htb1]

/-- Tables absent from the directory are untouched by the growing loop. -/
theorem growTabs_absent (dir : List TableId) (tabs : TableId → TableMeta)
    (t : TableId) (h : ∀ j, j < dir.length → dir.getD j 0 ≠ t) :
    growTabs dir tabs t = tabs t := by
  unfold growTabs
  apply growTabs_step_untouched
  intro i hi
  exact h i (List.mem_range.mp hi)


theorem getD_set_self {A : Type} (l : List A) (i : Nat) (a d : A)
    (h : i < l.length) : (l.set i a).getD i d = a := by
  simp [List.getD, List.getElem?_set_self, h]

theorem getD_set_other {A : Type} (l : List A) (i j : Nat) (a d : A)
    (h : i ≠ j) : (l.set i a).getD j d = l.getD j d := by
  simp [List.getD, List.getElem?_set_ne, h]

/-- Reduction of installTableSplit in the directory-doubling case, under the
directory invariants: the directory is interleaved (each entry duplicated),
the split table index is doubled, left lands at that index and right at the
next slot. -/
theorem installTableSplit_eq (s : DirState) (old left right : TableId)
    (hld : (s.tabs old).localDepth = s.globalDepth)
    (hldl : (s.tabs left).localDepth = s.globalDepth + 1)
    (hldr : (s.tabs right).localDepth = s.globalDepth + 1)
    (hidx : (s.tabs old).index < s.dir.length)
    (hspan : ∀ j, j < s.dir.length → (s.dir.getD j 0 = old ↔ j = (s.tabs old).index))
    (hfl : ∀ j, j < s.dir.length → s.dir.getD j 0 ≠ left)
    (hfr : ∀ j, j < s.dir.length → s.dir.getD j 0 ≠ right)
    (hlo : left ≠ old) (hlr : right ≠ left) :
    installTableSplit s old left right =
      { globalDepth := s.globalDepth + 1,
        dir := ((interleave s.dir).set (2 * (s.tabs old).index) left).set
          (2 * (s.tabs old).index + 1) right,
        tabs := setIndex (setIndex (growTabs s.dir s.tabs) left
          (2 * (s.tabs old).index)) right (2 * (s.tabs old).index + 1) } := by
  have hgold := growTabs_at_index s.dir s.tabs old hidx hspan
  have hgleft := growTabs_absent s.dir s.tabs left hfl
  have hgright := growTabs_absent s.dir s.tabs right hfr
  simp only [installTableSplit, replaceTable, hld, eq_self_iff_true, if_true]
  rw [hgold]
  simp only [setIndex_same]
  simp only [setIndex_other _ _ _ _ hlr]
  rw [hgleft, hgright, hldl, hldr, Nat.sub_self, pow_zero]
  have hr1 : List.range 1 = [0] := rfl
  rw [hr1]
  simp only [List.foldl_cons, List.foldl_nil, Nat.add_zero]


/-- C5: installTableSplit on a directory whose split table has
localDepth = globalDepth doubles the directory first (every entry
duplicated, globalDepth incremented), then installs left into its
1 << (globalDepth - localDepth) slots starting at the (doubled) index of the
old table, and right into its span immediately following. -/
theorem installTableSplit_spec (s : DirState) (old left right : TableId)
    (hld : (s.tabs old).localDepth = s.globalDepth)
    (hldl : (s.tabs left).localDepth = s.globalDepth + 1)
    (hldr : (s.tabs right).localDepth = s.globalDepth + 1)
    (hidx : (s.tabs old).index < s.dir.length)
    (hspan : ∀ j, j < s.dir.length → (s.dir.getD j 0 = old ↔ j = (s.tabs old).index))
    (hfl : ∀ j, j < s.dir.length → s.dir.getD j 0 ≠ left)
    (hfr : ∀ j, j < s.dir.length → s.dir.getD j 0 ≠ right)
    (hlo : left ≠ old) (hlr : right ≠ left) :
    (installTableSplit s old left right).globalDepth = s.globalDepth + 1 ∧
    (installTableSplit s old left right).dir.length = 2 * s.dir.length ∧
    ((installTableSplit s old left right).tabs left).index = 2 * (s.tabs old).index ∧
    ((installTableSplit s old left right).tabs right).index =
      ((installTableSplit s old left right).tabs left).index +
      2 ^ ((installTableSplit s old left right).globalDepth -
        ((installTableSplit s old left right).tabs left).localDepth) ∧
    (∀ j, j < 2 * s.dir.length →
      ((installTableSplit s old left right).dir.getD j 0 = left ↔
        ((installTableSplit s old left right).tabs left).index ≤ j ∧
        j < ((installTableSplit s old left right).tabs left).index +
          2 ^ ((installTableSplit s old left right).globalDepth -
            ((installTableSplit s old left right).tabs left).localDepth))) ∧
    (∀ j, j < 2 * s.dir.length →
      ((installTableSplit s old left right).dir.getD j 0 = right ↔
        ((installTableSplit s old left right).tabs right).index ≤ j ∧
        j < ((installTableSplit s old left right).tabs right).index +
          2 ^ ((installTableSplit s old left right).globalDepth -
            ((installTableSplit s old left right).tabs right).localDepth))) ∧
    (∀ j, j < 2 * s.dir.length → j ≠ 2 * (s.tabs old).index →
      j ≠ 2 * (s.tabs old).index + 1 →
      (installTableSplit s old left right).dir.getD j 0 = s.dir.getD (j / 2) 0) := by
  have hgleft := growTabs_absent s.dir s.tabs left hfl
  have hgright := growTabs_absent s.dir s.tabs right hfr
  rw [installTableSplit_eq s old left right hld hldl hldr hidx hspan hfl hfr hlo hlr]
  have e1 : setIndex (setIndex (growTabs s.dir s.tabs) left (2 * (s.tabs old).index))
      right (2 * (s.tabs old).index + 1) left =
      { s.tabs left with index := 2 * (s.tabs old).index } := by
    rw [setIndex_other _ _ _ _ (Ne.symm hlr), setIndex_same, hgleft]
  have e2 : setIndex (setIndex (growTabs s.dir s.tabs) left (2 * (s.tabs old).index))
      right (2 * (s.tabs old).index + 1) right =
      { s.tabs right with index := 2 * (s.tabs old).index + 1 } := by
    rw [setIndex_same, setIndex_other _ _ _ _ hlr, hgright]
  dsimp only
  rw [e1, e2]
  dsimp only
  rw [hldl, hldr, Nat.sub_self, pow_zero]
  have hlen2 : ((interleave s.dir).set (2 * (s.tabs old).index) left).length =
      2 * s.dir.length := by
    rw [List.length_set, interleave_length]
  refine ⟨rfl, ?_, rfl, rfl, ?_, ?_, ?_⟩
  · rw [List.length_set, hlen2]
  · intro j hj
    by_cases hj1 : j = 2 * (s.tabs old).index + 1
    · rw [hj1, getD_set_self _ _ _ _ (by rw [hlen2]; omega)]
      exact iff_of_false hlr (by omega)
    · rw [getD_set_other _ _ _ _ _ (Ne.symm hj1)]
      by_cases hj0 : j = 2 * (s.tabs old).index
      · rw [hj0, getD_set_self _ _ _ _ (by rw [interleave_length]; omega)]
        exact iff_of_true rfl (by omega)
      · rw [getD_set_other _ _ _ _ _ (Ne.symm hj0), interleave_getD _ _ _ hj]
        exact iff_of_false (hfl (j / 2) (by omega)) (by omega)
  · intro j hj
    by_cases hj1 : j = 2 * (s.tabs old).index + 1
    · rw [hj1, getD_set_self _ _ _ _ (by rw [hlen2]; omega)]
      exact iff_of_true rfl (by omega)
    · rw [getD_set_other _ _ _ _ _ (Ne.symm hj1)]
      by_cases hj0 : j = 2 * (s.tabs old).index
      · rw [hj0, getD_set_self _ _ _ _ (by rw [interleave_length]; omega)]
        exact iff_of_false (Ne.symm hlr) (by omega)
      · rw [getD_set_other _ _ _ _ _ (Ne.symm hj0), interleave_getD _ _ _ hj]
        exact iff_of_false (hfr (j / 2) (by omega)) (by omega)
  · intro j hj hne0 hne1
    rw [getD_set_other _ _ _ _ _ (Ne.symm hne1), getD_set_other _ _ _ _ _ (Ne.symm hne0),
      interleave_getD _ _ _ hj]


/-- Concrete one-entry directory about to split its only table (id 0) into
children 1 and 2. -/
def splitDemoState : DirState :=
  { globalDepth := 0, dir := [0],
    tabs := fun t => if t = 0 then { localDepth := 0, index := 0 }
            else { localDepth := 1, index := 0 } }

/-- Witness for installTableSplit_spec at a concrete directory. -/
theorem installTableSplit_spec_witness :
    ((splitDemoState.tabs 0).localDepth = splitDemoState.globalDepth ∧
     (splitDemoState.tabs 1).localDepth = splitDemoState.globalDepth + 1 ∧
     (splitDemoState.tabs 2).localDepth = splitDemoState.globalDepth + 1 ∧
     (splitDemoState.tabs 0).index < splitDemoState.dir.length ∧
     (∀ j, j < splitDemoState.dir.length →
       (splitDemoState.dir.getD j 0 = 0 ↔ j = (splitDemoState.tabs 0).index)) ∧
     (∀ j, j < splitDemoState.dir.length → splitDemoState.dir.getD j 0 ≠ 1) ∧
     (∀ j, j < splitDemoState.dir.length → splitDemoState.dir.getD j 0 ≠ 2) ∧
     (1 : TableId) ≠ 0 ∧ (2 : TableId) ≠ 1) ∧
    ((installTableSplit splitDemoState 0 1 2).globalDepth =
        splitDemoState.globalDepth + 1 ∧
     (installTableSplit splitDemoState 0 1 2).dir.length =
        2 * splitDemoState.dir.length ∧
     ((installTableSplit splitDemoState 0 1 2).tabs 1).index =
        2 * (splitDemoState.tabs 0).index ∧
     ((installTableSplit splitDemoState 0 1 2).tabs 2).index =
        ((installTableSplit splitDemoState 0 1 2).tabs 1).index +
        2 ^ ((installTableSplit splitDemoState 0 1 2).globalDepth -
          ((installTableSplit splitDemoState 0 1 2).tabs 1).localDepth) ∧
     (∀ j, j < 2 * splitDemoState.dir.length →
       ((installTableSplit splitDemoState 0 1 2).dir.getD j 0 = 1 ↔
         ((installTableSplit splitDemoState 0 1 2).tabs 1).index ≤ j ∧
         j < ((installTableSplit splitDemoState 0 1 2).tabs 1).index +
           2 ^ ((installTableSplit splitDemoState 0 1 2).globalDepth -
             ((installTableSplit splitDemoState 0 1 2).tabs 1).localDepth))) ∧
     (∀ j, j < 2 * splitDemoState.dir.length →
       ((installTableSplit splitDemoState 0 1 2).dir.getD j 0 = 2 ↔
         ((installTableSplit splitDemoState 0 1 2).tabs 2).index ≤ j ∧
         j < ((installTableSplit splitDemoState 0 1 2).tabs 2).index +
           2 ^ ((installTableSplit splitDemoState 0 1 2).globalDepth -
             ((installTableSplit splitDemoState 0 1 2).tabs 2).localDepth))) ∧
     (∀ j, j < 2 * splitDemoState.dir.length → j ≠ 2 * (splitDemoState.tabs 0).index →
       j ≠ 2 * (splitDemoState.tabs 0).index + 1 →
       (installTableSplit splitDemoState 0 1 2).dir.getD j 0 =
         splitDemoState.dir.getD (j / 2) 0)) :=
  ⟨⟨by decide, by decide, by decide, by decide, by decide, by decide, by decide,
    by decide, by decide⟩,
   installTableSplit_spec splitDemoState 0 1 2 (by decide) (by decide) (by decide)
     (by decide) (by decide) (by decide) (by decide) (by decide) (by decide)⟩

/-! ## Map.directoryIndex (src/unnamed/part_002) -/

/-- depthToShift on a 64-bit system (goarch.PtrSize = 8): 64 - depth.  The
subtraction is uint8; it agrees with Nat subtraction for depth <= 64. -/
def depthToShift (depth : Nat) : Nat := 64 - depth

/-- The directory-header fields of Map read by directoryIndex. -/
structure MapHeader where
  dirLen : Nat
  globalDepth : Nat
  globalShift : Nat

/-- Map.directoryIndex: hash >> (globalShift & 63), with a shortcut for a
single-table directory. -/
def directoryIndex (m : MapHeader) (hash : Nat) : Nat :=
  if m.dirLen = 1 then 0 else hash >>> (m.globalShift % 64)

/-- C10: on a consistent directory header (dirLen = 1 << globalDepth,
globalShift = depthToShift globalDepth, globalDepth at most 64) the
directory index of any 64-bit hash is within the directory. -/
theorem directoryIndex_lt (m : MapHeader) (hash : Nat)
    (hlen : m.dirLen = 2 ^ m.globalDepth)
    (hshift : m.globalShift = depthToShift m.globalDepth)
    (hgd : m.globalDepth ≤ 64) (hh : hash < 2 ^ 64) :
    directoryIndex m hash < m.dirLen := by
  unfold directoryIndex
  by_cases h1 : m.dirLen = 1
  · rw [if_pos h1, h1]
    omega
  · rw [if_neg h1]
    have hgd1 : 1 ≤ m.globalDepth := by
      by_contra hc
      have : m.globalDepth = 0 := by omega
      rw [this] at hlen
      exact h1 (by simpa using hlen)
    rw [hshift]
    unfold depthToShift
    rw [Nat.mod_eq_of_lt (by omega), hlen, Nat.shiftRight_eq_div_pow]
    apply Nat.div_lt_of_lt_mul
    calc hash < 2 ^ 64 := hh
      _ = 2 ^ (64 - m.globalDepth) * 2 ^ m.globalDepth := by
          rw [← pow_add]
          congr 1
          omega

/-- Witness for directoryIndex_lt at a concrete header and hash. -/
theorem directoryIndex_lt_witness :
    ({ dirLen := 4, globalDepth := 2, globalShift := 62 } : MapHeader).dirLen =
      2 ^ ({ dirLen := 4, globalDepth := 2, globalShift := 62 } : MapHeader).globalDepth ∧
    ({ dirLen := 4, globalDepth := 2, globalShift := 62 } : MapHeader).globalShift =
      depthToShift ({ dirLen := 4, globalDepth := 2, globalShift := 62 } : MapHeader).globalDepth ∧
    ({ dirLen := 4, globalDepth := 2, globalShift := 62 } : MapHeader).globalDepth ≤ 64 ∧
    (12345678901234567 : Nat) < 2 ^ 64 ∧
    directoryIndex { dirLen := 4, globalDepth := 2, globalShift := 62 }
      12345678901234567 <
      ({ dirLen := 4, globalDepth := 2, globalShift := 62 } : MapHeader).dirLen :=
  ⟨by decide, by decide, by decide, by norm_num,
   directoryIndex_lt { dirLen := 4, globalDepth := 2, globalShift := 62 }
     12345678901234567 (by decide) (by decide) (by decide) (by norm_num)⟩


/-! ## P521Point.SetBytes (src/unnamed/part_000, package nistec)

The fiat-crypto field arithmetic (fiat.P521Element) is outside the excerpt;
its operations used by SetBytes are abstracted as the record P521FieldOps.
SetBytes in Go returns (point, error) and leaves the receiver untouched on
every failure path; the model returns the receiver state after the call
together with the error (none on success). -/

structure P521FieldOps (A : Type) where
  /-- fiat.P521Element SetBytes: decode 66 canonical bytes or fail. -/
  setBytes : List Nat → Except String A
  one : A
  zero : A
  /-- p521CheckOnCurve: some message when the point is not on the curve. -/
  checkOnCurve : A → A → Option String

/-- A P-521 point in projective coordinates (X : Y : Z). -/
structure P521Point (A : Type) where
  x : A
  y : A
  z : A

def p521ElementLength : Nat := 66

/-- NewP521Point: the point at infinity (0 : 1 : 0). -/
def newP521Point {A : Type} (F : P521FieldOps A) : P521Point A :=
  { x := F.zero, y := F.one, z := F.zero }

/-- P521Point.SetBytes: dispatch on the encoding of b (infinity,
uncompressed, compressed, invalid), per SEC 1 section 2.3.4. -/
def p521SetBytes {A : Type} (F : P521FieldOps A) (p : P521Point A) (b : List Nat) :
    P521Point A × Option String :=
  if b.length = 1 ∧ b.headI = 0 then
    -- point at infinity: p.Set(NewP521Point())
    (newP521Point F, none)
  else if b.length = 1 + 2 * p521ElementLength ∧ b.headI = 4 then
    -- uncompressed form
    match F.setBytes ((b.drop 1).take p521ElementLength) with
    | Except.error e => (p, some e)
    | Except.ok x =>
        match F.setBytes (b.drop (1 + p521ElementLength)) with
        | Except.error e => (p, some e)
        | Except.ok y =>
            match F.checkOnCurve x y with
            | some e => (p, some e)
            | none => ({ x := x, y := y, z := F.one }, none)
  else if b.length = 1 + p521ElementLength ∧ b.headI = 0 then
    -- compressed form
    (p, some "unimplemented")
  else
    (p, some "invalid P521 point encoding")

/-- C9: a compressed-form input (length 1 + 66, leading byte matching the
compressed case) makes SetBytes return the fixed "unimplemented" failure and
leave the receiver point unchanged. -/
theorem p521SetBytes_compressed {A : Type} (F : P521FieldOps A) (p : P521Point A)
    (b : List Nat) (hlen : b.length = 1 + p521ElementLength) (hb0 : b.headI = 0) :
    p521SetBytes F p b = (p, some "unimplemented") := by
  unfold p521SetBytes
  rw [if_neg (by rw [hlen]; simp [p521ElementLength]),
      if_neg (by rw [hlen]; simp [p521ElementLength]),
      if_pos ⟨hlen, hb0⟩]

/-- Witness for p521SetBytes_compressed at a concrete 67-byte input. -/
theorem p521SetBytes_compressed_witness :
    (List.replicate 67 (0 : Nat)).length = 1 + p521ElementLength ∧
    (List.replicate 67 (0 : Nat)).headI = 0 ∧
    p521SetBytes
        { setBytes := fun _ => Except.ok (), one := (), zero := (),
          checkOnCurve := fun _ _ => none }
        { x := (), y := (), z := () } (List.replicate 67 0) =
      ({ x := (), y := (), z := () }, some "unimplemented") :=
  ⟨by decide, by decide,
   p521SetBytes_compressed
     { setBytes := fun _ => Except.ok (), one := (), zero := (),
       checkOnCurve := fun _ _ => none }
     { x := (), y := (), z := () } (List.replicate 67 0) (by decide) (by decide)⟩

end GoModel
